import Mathlib

/-!
Verification of the DCC Ledger hardware-wallet protocol library.

The definitions below are a shallow embedding of the TypeScript sources:
`src/utils.ts` (byte-level codecs), `src/DCC.ts` (the APDU protocol engine,
class `DCC`) and `src/dcc-ledger.ts` (the session manager, class `DCCLedger`).
Byte buffers are modelled as `List Nat`, fallible code as `Except`, and the
stateful parts (the memoized firmware version, the transport) as explicit
state passing plus an oracle giving each device response.
-/

/-- Structured device error, mirroring the `LedgerError` interface of
`types.ts`: a human-readable message plus the numeric status word. -/
structure LedgerError where
  error : String
  status : Nat
deriving DecidableEq, Repr

/-- The `STATUS_MESSAGES` table of `DCC.ts`: human-readable descriptions for
Ledger status-word codes. -/
def statusMessage (code : Nat) : Option String :=
  if code = 0x9000 then some "OK"
  else if code = 0x9100 then some "User cancelled"
  else if code = 0x9102 then some "Deprecated sign protocol"
  else if code = 0x9103 then some "Incorrect precision value"
  else if code = 0x9104 then some "Incorrect transaction type/version"
  else if code = 0x9105 then some "Protobuf decoding failed"
  else if code = 0x9106 then some "Byte decoding failed"
  else if code = 0x6982 then some "Security status not satisfied"
  else if code = 0x6985 then some "Conditions not satisfied"
  else if code = 0x6986 then some "Device is locked"
  else if code = 0x6990 then some "Buffer overflow"
  else if code = 0x6a86 then some "Incorrect P1/P2"
  else if code = 0x6d00 then some "Instruction not supported"
  else if code = 0x6e00 then some "CLA not supported"
  else none

/-- JS `padStart(4, 0)` on a character list. -/
def padStart4 (l : List Char) : List Char :=
  List.replicate (4 - l.length) (Char.ofNat 48) ++ l

/-- JS `statusCode.toString(16).padStart(4, 0)` (lowercase hex, left-padded
to four digits). -/
def hexPad4 (n : Nat) : String :=
  String.mk (padStart4 (Nat.toDigits 16 n))

/-- Message generated for a status code absent from `STATUS_MESSAGES`. -/
def unknownStatusMessage (code : Nat) : String :=
  "Unknown error (0x" ++ hexPad4 code ++ ")"

/-- The failure modes of the library, one constructor per distinct throw site
of the source (path parsing, argument validation, device status words,
transport failures, signature decoding). -/
inductive LedgerFailure where
  | invalidPathComponent
  | pathIndexTooLarge
  | emptyPath
  | emptyDataBuffer
  | rangeError (field : String)
  | uint32Range
  | statusError (err : LedgerError)
  | transportFailure
  | emptySignPayload
  | emptySignature
deriving DecidableEq, Repr

namespace DCC

/-- `DCC.checkError` from `DCC.ts`: combines the first two bytes of `data`
(missing bytes default to 0, via `data[0] ?? 0` / `data[1] ?? 0`) into a
16-bit status code; returns `none` for the OK word 0x9000, otherwise a
structured error with the mapped or generated message. -/
def checkError (data : List Nat) : Option LedgerError :=
  let high := data.getD 0 0
  let low := data.getD 1 0
  let statusCode := high * 256 + low
  if statusCode = 0x9000 then none
  else some ⟨(statusMessage statusCode).getD (unknownStatusMessage statusCode),
             statusCode⟩

end DCC

/-- C10: DCC.checkError is total on input arrays of any length, treating a
missing high or low byte as 0: it returns null exactly when
(data[0] or 0)*256 + (data[1] or 0) = 0x9000, otherwise an error object
carrying that numeric status; in particular checkError([]) returns the
error object with message "Unknown error (0x0000)" and status 0 rather
than failing. -/
theorem checkError_total :
    (∀ data : List Nat,
      (DCC.checkError data = none ↔ data.getD 0 0 * 256 + data.getD 1 0 = 0x9000) ∧
      (∀ e : LedgerError, DCC.checkError data = some e →
        e.status = data.getD 0 0 * 256 + data.getD 1 0)) ∧
    DCC.checkError [] = some ⟨"Unknown error (0x0000)", 0⟩ := by
  refine ⟨fun data => ⟨?_, ?_⟩, by decide⟩
  · by_cases h : data.getD 0 0 * 256 + data.getD 1 0 = 0x9000 <;>
      simp [DCC.checkError, h]
  · intro e he
    simp only [DCC.checkError] at he
    by_cases h : data.getD 0 0 * 256 + data.getD 1 0 = 0x9000
    · rw [if_pos h] at he
      exact absurd he (by simp)
    · rw [if_neg h] at he
      cases he
      rfl

/-- Witness: checkError_total applied at the concrete inputs [0x90, 0x00]
(OK) and [0x6a, 0x86] (mapped error with status 0x6a86). -/
theorem checkError_total_witness :
    DCC.checkError [0x90, 0x00] = none ∧
    (LedgerError.mk "Incorrect P1/P2" 27270).status =
      ([0x6a, 0x86] : List Nat).getD 0 0 * 256 + ([0x6a, 0x86] : List Nat).getD 1 0 := by
  refine ⟨((checkError_total.1 [0x90, 0x00]).1).mpr (by decide), ?_⟩
  exact (checkError_total.1 [0x6a, 0x86]).2 ⟨"Incorrect P1/P2", 27270⟩ (by decide)

/-- The slash character, the separator of BIP-44 path strings. -/
def slashChar : Char := Char.ofNat 47

/-- The apostrophe character, the hardening marker suffix of a path element. -/
def hardenedSuffix : Char := Char.ofNat 39

/-- JS `path.split(sep)` for the one-character separator used by
`DCC.splitPath`, modelled on the character list of the string: splitting the
empty string yields one empty segment, and a trailing separator yields a
trailing empty segment, exactly as in JS. -/
def splitOnSlash : List Char → List (List Char)
  | [] => [[]]
  | c :: rest =>
    if c = slashChar then [] :: splitOnSlash rest
    else
      match splitOnSlash rest with
      | [] => [[c]]
      | seg :: segs => (c :: seg) :: segs

/-- `element.endsWith` with the hardening marker, from `DCC.splitPath`. -/
def isHardened (element : List Char) : Bool :=
  element.getLast? == some hardenedSuffix

/-- Decimal parse of a character list: `some n` exactly when the list is a
non-empty run of decimal digits. Together with the canonical-form check in
`componentValue` (`String(num) === raw` in the source) this accepts exactly
the same element strings as the JS `parseInt` + `Number.isInteger` +
round-trip combination: the canonical decimal representations. -/
def parseDecimal (l : List Char) : Option Nat :=
  match l with
  | [] => none
  | _ => go l 0
where
  go : List Char → Nat → Option Nat
    | [], acc => some acc
    | c :: cs, acc =>
      if 48 ≤ c.toNat ∧ c.toNat ≤ 57 then go cs (acc * 10 + (c.toNat - 48))
      else none

namespace DCC

/-- One iteration of the `DCC.splitPath` loop: skips the root marker `m`,
strips an optional hardening marker, parses and validates the decimal index,
rejects non-canonical literals and indices above 0x7FFFFFFF, and adds the
0x80000000 hardening offset. -/
def componentValue (element : List Char) : Except LedgerFailure (Option Nat) :=
  if element = ['m'] then .ok none
  else
    let raw := if isHardened element then element.dropLast else element
    match parseDecimal raw with
    | none => .error .invalidPathComponent
    | some num =>
      if Nat.toDigits 10 num ≠ raw then .error .invalidPathComponent
      else if 0x7fffffff < num then .error .pathIndexTooLarge
      else .ok (some (if isHardened element then num + 0x80000000 else num))

/-- The full element loop of `DCC.splitPath`: the list of accepted component
values in order, stopping at the first invalid element. -/
def splitPathComponents : List (List Char) → Except LedgerFailure (List Nat)
  | [] => .ok []
  | e :: rest =>
    match componentValue e with
    | .error err => .error err
    | .ok none => splitPathComponents rest
    | .ok (some n) =>
      match splitPathComponents rest with
      | .error err => .error err
      | .ok vs => .ok (n :: vs)

end DCC

/-- Big-endian 4-byte encoding of a 32-bit value, as written by
`DataView.setUint32(_, value, false)` in `DCC.splitPath` and by
`uint32ToBytesBE` in `utils.ts`. -/
def beBytes4 (v : Nat) : List Nat :=
  [v / 2 ^ 24 % 256, v / 2 ^ 16 % 256, v / 2 ^ 8 % 256, v % 256]

deriving instance DecidableEq for Except

namespace DCC

/-- `DCC.splitPath` from `DCC.ts`: split the path string on the slash,
validate each component, reject an empty component list, and concatenate the
4-byte big-endian encodings. -/
def splitPath (path : String) : Except LedgerFailure (List Nat) :=
  match splitPathComponents (splitOnSlash path.toList) with
  | .error err => .error err
  | .ok vals =>
    if vals = [] then .error .emptyPath
    else .ok ((vals.map beBytes4).flatten)

end DCC

/-- The total byte length of the concatenated encodings is 4 per component. -/
theorem flatten_beBytes4_length (vals : List Nat) :
    ((vals.map beBytes4).flatten).length = 4 * vals.length := by
  induction vals with
  | nil => simp
  | cons v vs ih =>
    simp [beBytes4, ih]
    omega

/-- C4: for every path string accepted by DCC.splitPath the output buffer has
exactly 4 bytes per accepted component, each component encoded big-endian in
order; every hardened component (suffixed with the apostrophe) has the top
bit 0x80000000 set in its 4-byte encoding (first byte at least 0x80), every
non-hardened component never does, and for the hardened ones adding
0x80000000 to the raw index (which is at most 0x7FFFFFFF) coincides with
OR-ing it in. -/
theorem splitPath_component_encoding :
    (∀ (path : String) (buf : List Nat), DCC.splitPath path = .ok buf →
      ∃ vals, DCC.splitPathComponents (splitOnSlash path.toList) = .ok vals ∧
        buf = (vals.map beBytes4).flatten ∧ buf.length = 4 * vals.length) ∧
    (∀ (element : List Char) (n : Nat), DCC.componentValue element = .ok (some n) →
      (isHardened element = true →
        ∃ m, m ≤ 0x7fffffff ∧ n = m + 0x80000000 ∧ n = m ||| 0x80000000 ∧
          128 ≤ (beBytes4 n).headD 0) ∧
      (isHardened element = false → n ≤ 0x7fffffff ∧ (beBytes4 n).headD 0 < 128)) := by
  constructor
  · intro path buf h
    unfold DCC.splitPath at h
    cases hv : DCC.splitPathComponents (splitOnSlash path.toList) with
    | error err => rw [hv] at h; exact absurd h (by simp)
    | ok vals =>
      rw [hv] at h
      dsimp only at h
      by_cases hnil : vals = []
      · rw [if_pos hnil] at h; exact absurd h (by simp)
      · rw [if_neg hnil] at h
        cases h
        exact ⟨vals, rfl, rfl, flatten_beBytes4_length vals⟩
  · intro element n h
    unfold DCC.componentValue at h
    by_cases hm : element = ['m']
    · rw [if_pos hm] at h; exact absurd h (by simp)
    · rw [if_neg hm] at h
      dsimp only at h
      cases hp : parseDecimal (if isHardened element then element.dropLast else element) with
      | none => rw [hp] at h; exact absurd h (by simp)
      | some num =>
        rw [hp] at h
        dsimp only at h
        by_cases hc : Nat.toDigits 10 num ≠
            (if isHardened element then element.dropLast else element)
        · rw [if_pos hc] at h; exact absurd h (by simp)
        · rw [if_neg hc] at h
          by_cases hmax : 0x7fffffff < num
          · rw [if_pos hmax] at h; exact absurd h (by simp)
          · rw [if_neg hmax] at h
            cases h
            constructor
            · intro hh
              have hor : 2 ^ 31 * 1 + num = 2 ^ 31 * 1 ||| num :=
                Nat.mul_add_lt_is_or (show num < 2 ^ 31 by omega) 1
              refine ⟨num, by omega, by simp [hh], ?_, ?_⟩
              · simp only [hh, if_true]
                calc num + 0x80000000 = 2 ^ 31 * 1 + num := by omega
                  _ = 2 ^ 31 * 1 ||| num := hor
                  _ = num ||| 0x80000000 := by rw [Nat.lor_comm]; norm_num
              · simp only [hh, if_true, beBytes4, List.headD]
                omega
            · intro hh
              simp only [hh, Bool.false_eq_true, if_false, beBytes4, List.headD]
              exact ⟨by omega, by omega⟩

/-- Witness: splitPath_component_encoding applied to the concrete path
string made of the characters 4, 4, apostrophe, slash, 0 (the path with one
hardened component 44 and one non-hardened component 0), and to its two
elements. -/
theorem splitPath_component_encoding_witness :
    (∃ vals,
      DCC.splitPathComponents
        (splitOnSlash (String.mk [Char.ofNat 52, Char.ofNat 52, Char.ofNat 39,
          Char.ofNat 47, Char.ofNat 48]).toList) = .ok vals ∧
      ([0x80, 0, 0, 44, 0, 0, 0, 0] : List Nat) = (vals.map beBytes4).flatten ∧
      ([0x80, 0, 0, 44, 0, 0, 0, 0] : List Nat).length = 4 * vals.length) ∧
    (∃ m, m ≤ 0x7fffffff ∧ 0x8000002c = m + 0x80000000 ∧
      0x8000002c = m ||| 0x80000000 ∧ 128 ≤ (beBytes4 0x8000002c).headD 0) := by
  constructor
  · exact splitPath_component_encoding.1
      (String.mk [Char.ofNat 52, Char.ofNat 52, Char.ofNat 39, Char.ofNat 47,
        Char.ofNat 48]) [0x80, 0, 0, 44, 0, 0, 0, 0] (by decide)
  · exact ((splitPath_component_encoding.2
      [Char.ofNat 52, Char.ofNat 52, Char.ofNat 39] 0x8000002c (by decide)).1
      (by decide))

/-- The Base58 alphabet of `utils.ts` (standard Bitcoin alphabet). -/
def alphabetChars : List Char :=
  "123456789ABCDEFGHJKLMNPQRSTUVWXYZabcdefghijkmnopqrstuvwxyz".toList

/-- The `while (carry) digits.push(carry % 58)` loop of `base58Encode`,
written with an explicit fuel so that it is structurally recursive; a fuel of
`c` always suffices because the carry shrinks by a factor 58 per step. -/
def pushCarryAux : Nat → Nat → List Nat
  | 0, _ => []
  | fuel + 1, c => if c = 0 then [] else c % 58 :: pushCarryAux fuel (c / 58)

/-- The carry-push loop of `base58Encode` at its sufficient fuel. -/
def pushCarry (c : Nat) : List Nat :=
  pushCarryAux c c

/-- The in-place carry-propagation loop of `base58Encode`
(`digits[k] = (digits[k] + carry) % 58; carry = (val / 58) | 0`), followed by
the carry-push loop once the existing digits are exhausted. -/
def propagate : List Nat → Nat → List Nat
  | [], c => pushCarry c
  | d :: ds, c => (d + c) % 58 :: propagate ds ((d + c) / 58)

/-- One iteration of the byte loop of `base58Encode`: shift every digit left
by 8 bits, add the byte into digit 0, then propagate carries. (The digits
array of the source is never empty, so the first branch is unreachable.) -/
def b58step (digits : List Nat) (byte : Nat) : List Nat :=
  match digits.map (· * 256) with
  | [] => propagate [byte] 0
  | h :: t => propagate ((h + byte) :: t) 0

/-- The little-endian base-58 digits accumulated by `base58Encode` after the
byte loop, starting from the initial `digits = [0]`. -/
def base58Digits (buffer : List Nat) : List Nat :=
  buffer.foldl b58step [0]

/-- The leading-zero-byte loop of `base58Encode`
(`for (i = 0; buffer[i] === 0 && i < buffer.length - 1; i++) digits.push(0)`),
written on the byte list: one pushed zero digit per leading zero byte, except
that the last byte never counts. -/
def zeroPads : List Nat → Nat
  | [] => 0
  | [_] => 0
  | b :: rest => if b = 0 then zeroPads rest + 1 else 0

/-- JS `ALPHABET[digit] ?? ""`: the one-character string at the digit index,
or the empty string out of range. -/
def alphaStr (d : Nat) : String :=
  match alphabetChars.get? d with
  | some c => String.mk [c]
  | none => ""

/-- `base58Encode` from `utils.ts`: empty input gives the empty string;
otherwise the reversed digit array (base-58 digits plus one zero per counted
leading zero byte) is mapped through the alphabet and joined. -/
def base58Encode (buffer : List Nat) : String :=
  if buffer = [] then ""
  else
    let digits := base58Digits buffer ++ List.replicate (zeroPads buffer) 0
    (digits.reverse.map alphaStr).foldl (· ++ ·) ""

/-- Value of a little-endian base-58 digit list. -/
def val58 : List Nat → Nat
  | [] => 0
  | d :: ds => d + 58 * val58 ds

theorem pushCarryAux_zero (fuel : Nat) : pushCarryAux fuel 0 = [] := by
  cases fuel <;> simp [pushCarryAux]

theorem pushCarryAux_val : ∀ fuel c, c ≤ fuel → val58 (pushCarryAux fuel c) = c := by
  intro fuel
  induction fuel with
  | zero => intro c hc; interval_cases c; simp [pushCarryAux, val58]
  | succ fuel ih =>
    intro c hc
    by_cases h0 : c = 0
    · simp [pushCarryAux, h0, val58]
    · have hdiv : c / 58 ≤ fuel := by
        have hlt : c / 58 < c := Nat.div_lt_self (by omega) (by norm_num)
        omega
      simp only [pushCarryAux, h0, if_false, val58, ih (c / 58) hdiv]
      omega

theorem pushCarryAux_lt : ∀ fuel c, ∀ x ∈ pushCarryAux fuel c, x < 58 := by
  intro fuel
  induction fuel with
  | zero => intro c x hx; simp [pushCarryAux] at hx
  | succ fuel ih =>
    intro c x hx
    by_cases h0 : c = 0
    · simp [pushCarryAux, h0] at hx
    · simp only [pushCarryAux, h0, if_false, List.mem_cons] at hx
      rcases hx with h | h
      · omega
      · exact ih _ _ h

theorem pushCarryAux_last : ∀ fuel c, c ≠ 0 → c ≤ fuel →
    ∃ l d, pushCarryAux fuel c = l ++ [d] ∧ d ≠ 0 := by
  intro fuel
  induction fuel with
  | zero => intro c h0 hc; omega
  | succ fuel ih =>
    intro c h0 hc
    simp only [pushCarryAux, h0, if_false]
    by_cases hd : c / 58 = 0
    · refine ⟨[], c % 58, by simp [hd, pushCarryAux_zero], ?_⟩
      have : c < 58 := by omega
      omega
    · have hdiv : c / 58 ≤ fuel := by
        have hlt : c / 58 < c := Nat.div_lt_self (by omega) (by norm_num)
        omega
      obtain ⟨l, d, hl, hdnz⟩ := ih (c / 58) hd hdiv
      exact ⟨c % 58 :: l, d, by simp [hl], hdnz⟩

theorem propagate_val : ∀ (l : List Nat) (c : Nat), val58 (propagate l c) = val58 l + c := by
  intro l
  induction l with
  | nil => intro c; simpa [propagate, val58] using pushCarryAux_val c c le_rfl
  | cons d ds ih =>
    intro c
    simp only [propagate, val58, ih]
    omega

theorem propagate_lt : ∀ (l : List Nat) (c : Nat), ∀ x ∈ propagate l c, x < 58 := by
  intro l
  induction l with
  | nil => intro c x hx; exact pushCarryAux_lt c c x hx
  | cons d ds ih =>
    intro c x hx
    simp only [propagate, List.mem_cons] at hx
    rcases hx with h | h
    · omega
    · exact ih _ _ h

theorem propagate_last_nz : ∀ (l : List Nat) (v c : Nat), 58 ≤ v →
    ∃ l2 d, propagate (l ++ [v]) c = l2 ++ [d] ∧ d ≠ 0 := by
  intro l
  induction l with
  | nil =>
    intro v c hv
    simp only [List.nil_append, propagate]
    have hd : (v + c) / 58 ≠ 0 := by
      have h1 : 1 ≤ (v + c) / 58 := (Nat.one_le_div_iff (by norm_num)).mpr (by omega)
      omega
    obtain ⟨l2, d, hl2, hdnz⟩ := pushCarryAux_last ((v + c) / 58) ((v + c) / 58) hd le_rfl
    exact ⟨(v + c) % 58 :: l2, d, by simp [pushCarry] at hl2 ⊢; simp [hl2], hdnz⟩
  | cons a l ih =>
    intro v c hv
    simp only [List.cons_append, propagate]
    obtain ⟨l2, d, hl2, hdnz⟩ := ih v ((a + c) / 58) hv
    exact ⟨(a + c) % 58 :: l2, d, by simp [hl2], hdnz⟩

/-- Invariant of the digits array of `base58Encode`: all digits below 58, and
either the array is exactly `[0]` (value zero) or its most significant digit
is nonzero. -/
def GoodDigits (d : List Nat) : Prop :=
  (∀ x ∈ d, x < 58) ∧ (d = [0] ∨ ∃ l v, d = l ++ [v] ∧ v ≠ 0)

theorem propagate_single_good (byte : Nat) : GoodDigits (propagate [byte] 0) := by
  constructor
  · exact propagate_lt [byte] 0
  · by_cases h0 : byte = 0
    · left
      simp [h0, propagate, pushCarry, pushCarryAux_zero]
    · right
      by_cases hlt : byte < 58
      · refine ⟨[], byte % 58, ?_, by omega⟩
        have hd : byte / 58 = 0 := by omega
        simp [propagate, hd, pushCarry, pushCarryAux_zero]
      · obtain ⟨l2, d, hl2, hdnz⟩ := propagate_last_nz [] byte 0 (by omega)
        exact ⟨l2, d, hl2, hdnz⟩

theorem b58step_good (d : List Nat) (byte : Nat) (hg : GoodDigits d) :
    GoodDigits (b58step d byte) := by
  obtain ⟨hlt, hcases⟩ := hg
  rcases hcases with h0 | ⟨l, v, hlv, hvnz⟩
  · subst h0
    show GoodDigits (b58step [0] byte)
    have : b58step [0] byte = propagate [byte] 0 := by
      simp [b58step]
    rw [this]
    exact propagate_single_good byte
  · subst hlv
    cases l with
    | nil =>
      have hstep : b58step ([] ++ [v]) byte = propagate [256 * v + byte] 0 := by
        simp [b58step, Nat.mul_comm]
      rw [hstep]
      refine ⟨propagate_lt _ _, Or.inr ?_⟩
      exact propagate_last_nz [] (256 * v + byte) 0 (by omega)
    | cons a l =>
      have hstep : b58step ((a :: l) ++ [v]) byte =
          propagate (((a * 256 + byte) :: l.map (· * 256)) ++ [v * 256]) 0 := by
        simp [b58step]
      rw [hstep]
      refine ⟨propagate_lt _ _, Or.inr ?_⟩
      exact propagate_last_nz ((a * 256 + byte) :: l.map (· * 256)) (v * 256) 0 (by omega)

theorem base58Digits_good (buffer : List Nat) : GoodDigits (base58Digits buffer) := by
  have h : ∀ (bs : List Nat) (init : List Nat), GoodDigits init →
      GoodDigits (bs.foldl b58step init) := by
    intro bs
    induction bs with
    | nil => intro init hi; exact hi
    | cons b rest ih =>
      intro init hi
      exact ih (b58step init b) (b58step_good init b hi)
  exact h buffer [0] ⟨by simp, Or.inl rfl⟩

theorem map_mul256_val (l : List Nat) : val58 (l.map (· * 256)) = 256 * val58 l := by
  induction l with
  | nil => simp [val58]
  | cons d ds ih =>
    simp only [List.map_cons, val58, ih]
    ring

theorem b58step_val (d : List Nat) (byte : Nat) :
    val58 (b58step d byte) = 256 * val58 d + byte := by
  cases d with
  | nil =>
    simp [b58step, propagate_val, val58]
    omega
  | cons h t =>
    have : b58step (h :: t) byte = propagate ((h * 256 + byte) :: t.map (· * 256)) 0 := by
      simp [b58step]
    rw [this, propagate_val]
    simp only [val58, map_mul256_val]
    ring

/-- Big-endian byte value, matching the accumulation order of the byte loop. -/
def beValue (buffer : List Nat) : Nat :=
  buffer.foldl (fun acc b => acc * 256 + b) 0

theorem foldl_b58step_val :
    ∀ (buffer : List Nat) (init : List Nat),
      val58 (buffer.foldl b58step init) =
        buffer.foldl (fun acc b => acc * 256 + b) (val58 init) := by
  intro buffer
  induction buffer with
  | nil => intro init; rfl
  | cons b rest ih =>
    intro init
    simp only [List.foldl_cons, ih, b58step_val]
    rw [Nat.mul_comm 256 (val58 init)]

theorem base58Digits_val (buffer : List Nat) :
    val58 (base58Digits buffer) = beValue buffer := by
  have h := foldl_b58step_val buffer [0]
  simpa [base58Digits, beValue, val58] using h

theorem beValue_from_zero_iff :
    ∀ (buffer : List Nat) (acc : Nat),
      buffer.foldl (fun acc b => acc * 256 + b) acc = 0 ↔
        (acc = 0 ∧ ∀ b ∈ buffer, b = 0) := by
  intro buffer
  induction buffer with
  | nil => intro acc; simp
  | cons b rest ih =>
    intro acc
    simp only [List.foldl_cons, ih, List.mem_cons]
    constructor
    · rintro ⟨h1, h2⟩
      refine ⟨by omega, ?_⟩
      intro x hx
      rcases hx with rfl | hx
      · omega
      · exact h2 x hx
    · rintro ⟨h1, h2⟩
      refine ⟨by have := h2 b (Or.inl rfl); omega, ?_⟩
      intro x hx
      exact h2 x (Or.inr hx)

theorem base58Digits_of_all_zero (buffer : List Nat) (h : ∀ b ∈ buffer, b = 0) :
    base58Digits buffer = [0] := by
  have hstep : b58step [0] 0 = [0] := by decide
  unfold base58Digits
  induction buffer with
  | nil => rfl
  | cons b rest ih =>
    have hb : b = 0 := h b (List.mem_cons_self b rest)
    simp only [List.foldl_cons, hb, hstep]
    exact ih (fun x hx => h x (List.mem_cons_of_mem b hx))

theorem base58Digits_last_of_nonzero (buffer : List Nat)
    (h : ∃ b ∈ buffer, b ≠ 0) :
    ∃ l d, base58Digits buffer = l ++ [d] ∧ d ≠ 0 ∧ ∀ x ∈ l ++ [d], x < 58 := by
  obtain ⟨hlt, hcases⟩ := base58Digits_good buffer
  rcases hcases with h0 | ⟨l, v, hlv, hvnz⟩
  · exfalso
    have hv := base58Digits_val buffer
    rw [h0] at hv
    simp [val58] at hv
    obtain ⟨b, hb, hbnz⟩ := h
    have := (beValue_from_zero_iff buffer 0).mp (by simpa [beValue] using hv.symm)
    exact hbnz (this.2 b hb)
  · exact ⟨l, v, hlv, hvnz, by rw [← hlv]; exact hlt⟩

theorem zeroPads_eq_min (buffer : List Nat) :
    zeroPads buffer =
      min ((buffer.takeWhile (fun b => b == 0)).length) (buffer.length - 1) := by
  induction buffer with
  | nil => simp [zeroPads]
  | cons b rest ih =>
    cases rest with
    | nil =>
      simp [zeroPads]
    | cons c rest2 =>
      by_cases hb : b = 0
      · subst hb
        show zeroPads (0 :: c :: rest2) = _
        have hz : zeroPads (0 :: c :: rest2) = zeroPads (c :: rest2) + 1 := by
          simp [zeroPads]
        rw [hz, ih]
        simp only [List.takeWhile_cons, beq_self_eq_true, if_true, List.length_cons]
        omega
      · have hz : zeroPads (b :: c :: rest2) = 0 := by
          simp [zeroPads, hb]
        rw [hz]
        simp [List.takeWhile_cons, hb]

theorem alphaStr_data_of_lt :
    ∀ d < 58, (alphaStr d).data = [alphabetChars.getD d (Char.ofNat 48)] := by
  decide

theorem alphaChar_ne_one :
    ∀ d < 58, d ≠ 0 → (alphabetChars.getD d (Char.ofNat 48) == '1') = false := by
  decide

theorem alphaStr_zero : alphaStr 0 = "1" := by decide

theorem foldl_append_data (l : List String) :
    ∀ s : String, (l.foldl (· ++ ·) s).data = s.data ++ (l.map String.data).flatten := by
  induction l with
  | nil => intro s; simp
  | cons t ts ih =>
    intro s
    simp only [List.foldl_cons, ih, List.map_cons, List.flatten_cons,
      String.data_append, List.append_assoc]

theorem flatten_replicate_single {α : Type} (m : Nat) (c : α) :
    (List.replicate m [c]).flatten = List.replicate m c := by
  induction m with
  | zero => rfl
  | succ m ih => simp [List.replicate_succ, ih]

theorem takeWhile_replicate_append {α : Type} (p : α → Bool) (c : α) (hc : p c = true) :
    ∀ (m : Nat) (tail : List α),
      ((List.replicate m c ++ tail).takeWhile p).length = m + (tail.takeWhile p).length := by
  intro m
  induction m with
  | zero => intro tail; simp
  | succ m ih =>
    intro tail
    simp only [List.replicate_succ, List.cons_append, List.takeWhile_cons, hc, if_true,
      List.length_cons, ih]
    omega

theorem takeWhile_zero_all (buffer : List Nat) (h : ∀ b ∈ buffer, b = 0) :
    buffer.takeWhile (fun b => b == 0) = buffer := by
  induction buffer with
  | nil => rfl
  | cons b rest ih =>
    have hb : b = 0 := h b (List.mem_cons_self b rest)
    simp only [List.takeWhile_cons, hb, beq_self_eq_true, if_true, List.cons.injEq]
    exact ⟨trivial, ih (fun x hx => h x (List.mem_cons_of_mem b hx))⟩

theorem takeWhile_zero_lt (buffer : List Nat) (h : ∃ b ∈ buffer, b ≠ 0) :
    (buffer.takeWhile (fun b => b == 0)).length < buffer.length := by
  induction buffer with
  | nil => simp at h
  | cons b rest ih =>
    by_cases hb : b = 0
    · subst hb
      have hrest : ∃ x ∈ rest, x ≠ 0 := by
        obtain ⟨x, hx, hxnz⟩ := h
        rcases List.mem_cons.mp hx with rfl | hx2
        · exact absurd rfl hxnz
        · exact ⟨x, hx2, hxnz⟩
      simp only [List.takeWhile_cons, beq_self_eq_true, if_true, List.length_cons]
      exact Nat.succ_lt_succ (ih hrest)
    · have : ((b :: rest).takeWhile (fun b => b == 0)) = [] := by
        simp [List.takeWhile_cons, hb]
      simp [this]

theorem base58Encode_data (buffer : List Nat) (hne : buffer ≠ []) :
    (base58Encode buffer).data =
      (((base58Digits buffer ++ List.replicate (zeroPads buffer) 0).reverse.map
        alphaStr).map String.data).flatten := by
  unfold base58Encode
  rw [if_neg hne]
  rw [foldl_append_data]
  rfl

/-- The leading run of alphabet-index-0 characters of the output counts
exactly the leading zero bytes of the input. -/
theorem base58_count_ones (buffer : List Nat) :
    ((base58Encode buffer).data.takeWhile (fun c => c == '1')).length =
      (buffer.takeWhile (fun b => b == 0)).length := by
  by_cases hne : buffer = []
  · subst hne
    simp [base58Encode]
  · rw [base58Encode_data buffer hne]
    rw [List.map_map, List.reverse_append, List.reverse_replicate, List.map_append,
      List.flatten_append, List.map_replicate]
    have hone : (String.data ∘ alphaStr) 0 = ['1'] := by decide
    rw [hone, flatten_replicate_single]
    have hlen1 : 1 ≤ buffer.length := by
      cases buffer
      · exact absurd rfl hne
      · simp
    by_cases hz : ∀ b ∈ buffer, b = 0
    · rw [base58Digits_of_all_zero buffer hz]
      have hk : (buffer.takeWhile (fun b => b == 0)).length = buffer.length := by
        rw [takeWhile_zero_all buffer hz]
      rw [takeWhile_replicate_append _ _ (by decide)]
      rw [zeroPads_eq_min, hk]
      simp only [List.reverse_cons, List.reverse_nil, List.nil_append, List.map_cons,
        List.map_nil, List.flatten_cons, List.flatten_nil, List.append_nil, hone]
      have : (List.takeWhile (fun c => c == '1') ['1']).length = 1 := by decide
      rw [this]
      omega
    · push_neg at hz
      obtain ⟨l, d, hD, hdnz, hlt⟩ := base58Digits_last_of_nonzero buffer hz
      have hdlt : d < 58 := hlt d (by simp)
      rw [hD, List.reverse_append]
      simp only [List.reverse_cons, List.reverse_nil, List.nil_append,
        List.singleton_append, List.map_cons, List.flatten_cons, Function.comp]
      rw [alphaStr_data_of_lt d hdlt]
      rw [takeWhile_replicate_append _ _ (by decide)]
      simp only [List.singleton_append, List.cons_append, List.takeWhile_cons,
        alphaChar_ne_one d hdlt hdnz]
      simp only [Bool.false_eq_true, if_false, List.length_nil]
      have hklt := takeWhile_zero_lt buffer hz
      rw [zeroPads_eq_min]
      omega

/-- C9: base58Encode maps the empty buffer to the empty string, and for every
input preserves one leading alphabet-index-0 character (the character 1) per
leading zero byte; in particular [0] encodes to "1", [0,0,1] to "112",
[72,101,108,108,111] to "9Ajdvzr", and [255] to "5Q". -/
theorem base58Encode_spec :
    base58Encode [] = "" ∧
    (∀ buffer : List Nat,
      ((base58Encode buffer).data.takeWhile (fun c => c == '1')).length =
        (buffer.takeWhile (fun b => b == 0)).length) ∧
    base58Encode [0] = "1" ∧
    base58Encode [0, 0, 1] = "112" ∧
    base58Encode [72, 101, 108, 108, 111] = "9Ajdvzr" ∧
    base58Encode [255] = "5Q" :=
  ⟨rfl, base58_count_ones, by decide, by decide, by decide, by decide⟩

/-- One transport exchange: the five arguments of `transport.send`. -/
structure Exchange where
  cla : Nat
  ins : Nat
  p1 : Nat
  p2 : Nat
  data : List Nat
deriving DecidableEq, Repr

/-- JS `bytes.slice(-2)`: the trailing two elements. -/
def lastTwo (l : List Nat) : List Nat :=
  l.drop (l.length - 2)

/-- JS `bytes.slice(0, -2)`: everything but the trailing two elements. -/
def dropLastTwo (l : List Nat) : List Nat :=
  l.take (l.length - 2)

/-- The version-query APDU sent by `DCC.getVersion`:
`transport.send(0x80, 0x06, 0, 0)`. -/
def versionExchange : Exchange :=
  ⟨0x80, 0x06, 0, 0, []⟩

namespace DCC

/-- One call of `DCC.getVersion` as a state transition. The state is the
memoized raw device response (`this._version`, `none` when absent); `resp`
is the outcome the transport would deliver if the query is actually sent.
Returns the new cache, the transport exchanges performed by this call, and
the call's result. A cache hit re-runs the status check on the cached bytes
without any exchange; a miss sends the query; any failure (transport error
or non-OK status word) clears the cache and propagates the error, mirroring
the `catch` block `this._version = null; throw e`. -/
def getVersionStep (cache : Option (List Nat))
    (resp : Except LedgerFailure (List Nat)) :
    Option (List Nat) × List Exchange × Except LedgerFailure (List Nat) :=
  match cache with
  | some v =>
    match checkError (lastTwo v) with
    | some err => (none, [], .error (.statusError err))
    | none => (some v, [], .ok (dropLastTwo v))
  | none =>
    match resp with
    | .error e => (none, [versionExchange], .error e)
    | .ok bytes =>
      match checkError (lastTwo bytes) with
      | some err => (none, [versionExchange], .error (.statusError err))
      | none => (some bytes, [versionExchange], .ok (dropLastTwo bytes))

end DCC

/-- `SignTxData` of `types.ts`: buffer, type code, format version, and the
three optional precision fields. -/
structure SignTxData where
  dataBuffer : List Nat
  dataType : Nat
  dataVersion : Nat
  amountPrecision : Option Nat
  amount2Precision : Option Nat
  feePrecision : Option Nat
deriving DecidableEq, Repr

/-- `SignData` of `types.ts`: a bare byte buffer. -/
structure SignData where
  dataBuffer : List Nat
deriving DecidableEq, Repr

/-- `SignOrderData` of `types.ts`: buffer, format version, and the three
optional precision fields (no type code: `signOrder` stamps it). -/
structure SignOrderData where
  dataBuffer : List Nat
  dataVersion : Nat
  amountPrecision : Option Nat
  amount2Precision : Option Nat
  feePrecision : Option Nat
deriving DecidableEq, Repr

/-- `uint32ToBytesBE` from `utils.ts`: range-checked big-endian encoding. -/
def uint32ToBytesBE (value : Nat) : Except LedgerFailure (List Nat) :=
  if 0xffffffff < value then .error .uint32Range
  else .ok (beBytes4 value)

namespace DCC

/-- `DCC_CONFIG.DCC_PRECISION`. -/
def DCC_PRECISION : Nat := 8

/-- The part of `DCC._fillDataForSign` that runs after `getVersion` has
resolved: apply the precision defaults, validate every single-byte metadata
field, compute the comparable firmware integer, and build the payload of the
tier the version selects. The source throws `RangeError` from `assertUint8`
in the order amountPrecision, amount2Precision, feePrecision, dataType,
dataVersion, before any path splitting. -/
def fillDataAfterVersion (appVersion : List Nat) (path : String)
    (s : SignTxData) : Except LedgerFailure (List Nat) :=
  let amountPrecision := s.amountPrecision.getD DCC_PRECISION
  let amount2Precision := s.amount2Precision.getD 0
  let feePrecision := s.feePrecision.getD DCC_PRECISION
  if 255 < amountPrecision then .error (.rangeError "amountPrecision")
  else if 255 < amount2Precision then .error (.rangeError "amount2Precision")
  else if 255 < feePrecision then .error (.rangeError "feePrecision")
  else if 255 < s.dataType then .error (.rangeError "dataType")
  else if 255 < s.dataVersion then .error (.rangeError "dataVersion")
  else
    let major := appVersion.getD 0 0
    let minor := appVersion.getD 1 0
    let patch := appVersion.getD 2 0
    let fwVersion := major * 10000 + minor * 100 + patch
    match splitPath path with
    | .error err => .error err
    | .ok pathBytes =>
      if 10200 ≤ fwVersion then
        match uint32ToBytesBE s.dataBuffer.length with
        | .error err => .error err
        | .ok lenBytes =>
          .ok (pathBytes ++
            [amountPrecision, amount2Precision, feePrecision, s.dataType,
              s.dataVersion] ++ lenBytes ++
            s.dataBuffer ++ s.dataBuffer ++ s.dataBuffer ++ s.dataBuffer)
      else if 10100 ≤ fwVersion then
        match uint32ToBytesBE s.dataBuffer.length with
        | .error err => .error err
        | .ok lenBytes =>
          .ok (pathBytes ++
            [amountPrecision, feePrecision, s.dataType, s.dataVersion] ++
            lenBytes ++ s.dataBuffer ++ s.dataBuffer)
      else
        .ok (pathBytes ++
          [amountPrecision, feePrecision, s.dataType, s.dataVersion] ++
          s.dataBuffer)

/-- `DCC._fillDataForSign`: reject an empty buffer, then query the firmware
version (this is the first transport exchange of a signing call, performed
before the uint8 validation), then build the version-dependent payload. -/
def fillDataForSign (cache : Option (List Nat))
    (resp : Except LedgerFailure (List Nat)) (path : String) (s : SignTxData) :
    Option (List Nat) × List Exchange × Except LedgerFailure (List Nat) :=
  if s.dataBuffer = [] then (cache, [], .error .emptyDataBuffer)
  else
    match getVersionStep cache resp with
    | (c2, exs, .error e) => (c2, exs, .error e)
    | (c2, exs, .ok appVersion) => (c2, exs, fillDataAfterVersion appVersion path s)

/-- The `SignTxData` record that `DCC.signOrder` hands to
`_fillDataForSign`: the caller's fields with the ORDER type code stamped in
(`{ ...sOData, dataType: DCC_CONFIG.SIGNED_CODES.ORDER }`). -/
def signOrderData (sOData : SignOrderData) : SignTxData :=
  ⟨sOData.dataBuffer, 0xfc, sOData.dataVersion, sOData.amountPrecision,
    sOData.amount2Precision, sOData.feePrecision⟩

/-- The record `DCC.signSomeData` hands to `_fillDataForSign`: type code
0xFD, and dataVersion, amountPrecision, feePrecision overwritten with 0;
amount2Precision is not set. -/
def signSomeDataData (sOData : SignData) : SignTxData :=
  ⟨sOData.dataBuffer, 0xfd, 0, some 0, none, some 0⟩

/-- The record `DCC.signRequest` hands to `_fillDataForSign`: type code
0xFE, zeroed dataVersion/amountPrecision/feePrecision. -/
def signRequestData (sOData : SignData) : SignTxData :=
  ⟨sOData.dataBuffer, 0xfe, 0, some 0, none, some 0⟩

/-- The record `DCC.signMessage` hands to `_fillDataForSign`: type code
0xFF, zeroed dataVersion/amountPrecision/feePrecision. -/
def signMessageData (sOData : SignData) : SignTxData :=
  ⟨sOData.dataBuffer, 0xff, 0, some 0, none, some 0⟩

/-- The chunk loop of `DCC._signData`, structurally recursive on an explicit
fuel (the buffer length always suffices, every iteration consumes at least
one byte). `dev k` is the device response to the k-th signing exchange.
Each iteration takes `min(remaining, 123)` bytes, sends them with parameter
byte 0x00 when more than 123 bytes remain (more chunks follow) and 0x80
otherwise (final chunk), checks the response status word, and stops with the
mapped error on a non-OK status. -/
def signDataGo (chainId : Nat) (dev : Nat → List Nat) :
    Nat → Nat → List Nat → List Nat →
      List Exchange × Except LedgerFailure (List Nat)
  | 0, _, _, result => ([], .ok result)
  | fuel + 1, k, remaining, result =>
    if remaining = [] then ([], .ok result)
    else
      let chunkLength := min remaining.length 123
      let p1 := if 123 < remaining.length then 0x00 else 0x80
      let chunk := remaining.take chunkLength
      let resp := dev k
      let ex : Exchange := ⟨0x80, 0x02, p1, chainId, chunk⟩
      match checkError (lastTwo resp) with
      | some err => ([ex], .error (.statusError err))
      | none =>
        let next := signDataGo chainId dev fuel (k + 1) (remaining.drop chunkLength) resp
        (ex :: next.1, next.2)

/-- `DCC._signData`: reject an empty payload, run the chunk loop, strip the
status word from the final response, reject an empty signature, and encode
it in Base58. -/
def signData (chainId : Nat) (dev : Nat → List Nat) (dataBuffer : List Nat) :
    List Exchange × Except LedgerFailure String :=
  if dataBuffer = [] then ([], .error .emptySignPayload)
  else
    match signDataGo chainId dev dataBuffer.length 0 dataBuffer [] with
    | (exs, .error e) => (exs, .error e)
    | (exs, .ok result) =>
      let signature := dropLastTwo result
      if signature = [] then (exs, .error .emptySignature)
      else (exs, .ok (base58Encode signature))

/-- `DCC.signTransaction`: build the payload via `_fillDataForSign` (which
performs the version query) and, on success, send it via `_signData`. The
exchanges of both phases are concatenated in order. -/
def signTransaction (networkCode : Nat) (cache : Option (List Nat))
    (resp : Except LedgerFailure (List Nat)) (dev : Nat → List Nat)
    (path : String) (s : SignTxData) :
    Option (List Nat) × List Exchange × Except LedgerFailure String :=
  match fillDataForSign cache resp path s with
  | (c2, exs, .error e) => (c2, exs, .error e)
  | (c2, exs, .ok dataForDevice) =>
    match signData networkCode dev dataForDevice with
    | (exs2, r) => (c2, exs ++ exs2, r)

end DCC

namespace DCCLedger

/-- `DCCLedger.getPaginationUsersData` from `dcc-ledger.ts`, parametrized by
the underlying per-index derivation `deriveById` (`getUserDataById` in the
source). The `from`/`limit` arguments are naturals, which satisfies the
non-negative-integer guards of the source; the loop
`for (id = from; id < from + limit; id++)` is written as recursion on the
remaining count. The records accumulate in order and the first failure
propagates, discarding the partial list. -/
def getPaginationUsersData {α : Type} (deriveById : Nat → Except LedgerFailure α) :
    Nat → Nat → Except LedgerFailure (List α)
  | _, 0 => .ok []
  | fromIdx, lim + 1 =>
    match deriveById fromIdx with
    | .error e => .error e
    | .ok u =>
      match getPaginationUsersData deriveById (fromIdx + 1) lim with
      | .error e => .error e
      | .ok us => .ok (u :: us)

end DCCLedger

/-- Unfolding equation: a getVersion call on a populated cache. -/
theorem getVersionStep_some (v0 : List Nat) (resp : Except LedgerFailure (List Nat)) :
    DCC.getVersionStep (some v0) resp =
      match DCC.checkError (lastTwo v0) with
      | some err => (none, [], .error (.statusError err))
      | none => (some v0, [], .ok (dropLastTwo v0)) := rfl

/-- Unfolding equation: a getVersion call on an empty cache whose transport
query fails. -/
theorem getVersionStep_none_err (e : LedgerFailure) :
    DCC.getVersionStep none (.error e) = (none, [versionExchange], .error e) := rfl

/-- Unfolding equation: a getVersion call on an empty cache whose transport
query delivers bytes. -/
theorem getVersionStep_none_ok (bytes : List Nat) :
    DCC.getVersionStep none (.ok bytes) =
      match DCC.checkError (lastTwo bytes) with
      | some err => (none, [versionExchange], .error (.statusError err))
      | none => (some bytes, [versionExchange], .ok (dropLastTwo bytes)) := rfl

/-- C6: on one DCC instance, getVersion performs at most one underlying
transport exchange across any number of repeated successful calls (a
successful call leaves the memoized response in place, and every later call
on that state performs no exchange and returns the same value); after any
failed call (transport failure or non-OK status word) the memoized result is
cleared (cache becomes none) and the error propagated, and a call on the
empty cache performs exactly one new exchange. -/
theorem getVersion_memoization :
    (∀ (cache : Option (List Nat)) (resp resp2 : Except LedgerFailure (List Nat))
        (c2 : Option (List Nat)) (exs : List Exchange) (v : List Nat),
      DCC.getVersionStep cache resp = (c2, exs, .ok v) →
      DCC.getVersionStep c2 resp2 = (c2, [], .ok v)) ∧
    (∀ (cache : Option (List Nat)) (resp : Except LedgerFailure (List Nat))
        (c2 : Option (List Nat)) (exs : List Exchange) (e : LedgerFailure),
      DCC.getVersionStep cache resp = (c2, exs, .error e) → c2 = none) ∧
    (∀ resp : Except LedgerFailure (List Nat),
      (DCC.getVersionStep none resp).2.1 = [versionExchange]) ∧
    (∀ (v : List Nat) (resp : Except LedgerFailure (List Nat)),
      (DCC.getVersionStep (some v) resp).2.1 = []) := by
  refine ⟨?_, ?_, ?_, ?_⟩
  · intro cache resp resp2 c2 exs v h
    cases cache with
    | some v0 =>
      rw [getVersionStep_some] at h
      split at h
      · simp at h
      · rename_i hc
        simp only [Prod.mk.injEq, Except.ok.injEq] at h
        obtain ⟨rfl, -, rfl⟩ := h
        rw [getVersionStep_some, hc]
    | none =>
      cases resp with
      | error e => rw [getVersionStep_none_err] at h; simp at h
      | ok bytes =>
        rw [getVersionStep_none_ok] at h
        split at h
        · simp at h
        · rename_i hc
          simp only [Prod.mk.injEq, Except.ok.injEq] at h
          obtain ⟨rfl, -, rfl⟩ := h
          rw [getVersionStep_some, hc]
  · intro cache resp c2 exs e h
    cases cache with
    | some v0 =>
      rw [getVersionStep_some] at h
      split at h
      · simp only [Prod.mk.injEq] at h
        exact h.1.symm
      · simp at h
    | none =>
      cases resp with
      | error e2 =>
        rw [getVersionStep_none_err] at h
        simp only [Prod.mk.injEq] at h
        exact h.1.symm
      | ok bytes =>
        rw [getVersionStep_none_ok] at h
        split at h
        · simp only [Prod.mk.injEq] at h
          exact h.1.symm
        · simp at h
  · intro resp
    cases resp with
    | error e => rfl
    | ok bytes =>
      rw [getVersionStep_none_ok]
      split <;> rfl
  · intro v resp
    rw [getVersionStep_some]
    split <;> rfl

/-- Witness: getVersion_memoization applied at the concrete successful
response [1, 2, 3, 0x90, 0x00] (cached; the follow-up call exchanges
nothing and returns [1, 2, 3]), at the failing response
[1, 2, 3, 0x69, 0x85] (cache cleared), and at a fresh cache (exactly one
exchange). -/
theorem getVersion_memoization_witness :
    DCC.getVersionStep (some [1, 2, 3, 0x90, 0x00]) (.ok []) =
      (some [1, 2, 3, 0x90, 0x00], [], .ok [1, 2, 3]) ∧
    (none : Option (List Nat)) = none ∧
    (DCC.getVersionStep none (.ok [1, 2, 3, 0x90, 0x00])).2.1 = [versionExchange] := by
  refine ⟨?_, ?_, ?_⟩
  · exact getVersion_memoization.1 none (.ok [1, 2, 3, 0x90, 0x00]) (.ok [])
      (some [1, 2, 3, 0x90, 0x00]) [versionExchange] [1, 2, 3] (by decide)
  · exact getVersion_memoization.2.1 none (.ok [1, 2, 3, 0x69, 0x85]) none
      [versionExchange]
      (.statusError ⟨"Conditions not satisfied", 0x6985⟩) (by decide)
  · exact getVersion_memoization.2.2.1 (.ok [1, 2, 3, 0x90, 0x00])

/-- C5: with every underlying derivation succeeding, the pagination
operation returns exactly count records for the indices from, from+1, ...,
from+count-1 in that order (exclusive upper bound); count = 0 returns the
empty list; and the first failing index propagates its error with no partial
results. -/
theorem getPaginationUsersData_spec :
    (∀ {α : Type} (deriveById : Nat → Except LedgerFailure α) (u : Nat → α)
        (fromIdx count : Nat),
      (∀ i, fromIdx ≤ i → i < fromIdx + count → deriveById i = .ok (u i)) →
      DCCLedger.getPaginationUsersData deriveById fromIdx count =
        .ok ((List.range count).map (fun k => u (fromIdx + k)))) ∧
    (∀ {α : Type} (deriveById : Nat → Except LedgerFailure α) (fromIdx : Nat),
      DCCLedger.getPaginationUsersData deriveById fromIdx 0 = .ok []) ∧
    (∀ {α : Type} (deriveById : Nat → Except LedgerFailure α) (u : Nat → α)
        (fromIdx count j : Nat) (e : LedgerFailure),
      fromIdx ≤ j → j < fromIdx + count →
      (∀ i, fromIdx ≤ i → i < j → deriveById i = .ok (u i)) →
      deriveById j = .error e →
      DCCLedger.getPaginationUsersData deriveById fromIdx count = .error e) := by
  have hok : ∀ {α : Type} (deriveById : Nat → Except LedgerFailure α) (u : Nat → α)
      (count fromIdx : Nat),
      (∀ i, fromIdx ≤ i → i < fromIdx + count → deriveById i = .ok (u i)) →
      DCCLedger.getPaginationUsersData deriveById fromIdx count =
        .ok ((List.range count).map (fun k => u (fromIdx + k))) := by
    intro α deriveById u count
    induction count with
    | zero => intro fromIdx h; rfl
    | succ n ih =>
      intro fromIdx h
      have h0 : deriveById fromIdx = .ok (u fromIdx) := h fromIdx le_rfl (by omega)
      have hrec := ih (fromIdx + 1) (fun i h1 h2 => h i (by omega) (by omega))
      unfold DCCLedger.getPaginationUsersData
      rw [h0, hrec]
      have hmap : (List.range (n + 1)).map (fun k => u (fromIdx + k)) =
          u fromIdx :: (List.range n).map (fun k => u (fromIdx + 1 + k)) := by
        rw [List.range_succ_eq_map, List.map_cons, List.map_map]
        have hfun : ((fun k => u (fromIdx + k)) ∘ Nat.succ) =
            (fun k => u (fromIdx + 1 + k)) := by
          funext k
          simp only [Function.comp]
          congr 1
          omega
        rw [hfun, Nat.add_zero]
      rw [hmap]
  refine ⟨fun d u fi c h => hok d u c fi h, fun d fi => rfl, ?_⟩
  intro α deriveById u fromIdx count j e hj1 hj2 hpre hfail
  induction count generalizing fromIdx with
  | zero => omega
  | succ n ih =>
    by_cases hjf : j = fromIdx
    · subst hjf
      unfold DCCLedger.getPaginationUsersData
      rw [hfail]
    · have h0 : deriveById fromIdx = .ok (u fromIdx) :=
        hpre fromIdx (by omega) (by omega)
      have hrec := ih (fromIdx + 1) (by omega) (by omega)
        (fun i h1 h2 => hpre i (by omega) h2)
      unfold DCCLedger.getPaginationUsersData
      rw [h0, hrec]

/-- Witness: getPaginationUsersData_spec applied with the always-succeeding
derivation at from = 0, count = 2 (records for indices 0 and 1, in order),
at count = 0 (empty), and with a derivation failing at index 1 inside the
range from = 0, count = 3 (error propagated). -/
theorem getPaginationUsersData_spec_witness :
    DCCLedger.getPaginationUsersData (fun i => Except.ok i) 0 2 = .ok [0, 1] ∧
    DCCLedger.getPaginationUsersData (fun i => Except.ok i) 5 0 = .ok [] ∧
    DCCLedger.getPaginationUsersData
      (fun i => if i = 1 then Except.error LedgerFailure.transportFailure
        else Except.ok i) 0 3 = .error LedgerFailure.transportFailure := by
  refine ⟨?_, ?_, ?_⟩
  · exact getPaginationUsersData_spec.1 (fun i => Except.ok i) (fun i => i) 0 2
      (fun i _ _ => rfl)
  · exact getPaginationUsersData_spec.2.1 (fun i => Except.ok i) 5
  · exact getPaginationUsersData_spec.2.2
      (fun i => if i = 1 then Except.error LedgerFailure.transportFailure
        else Except.ok i)
      (fun i => i) 0 3 1 LedgerFailure.transportFailure (by omega) (by omega)
      (fun i h1 h2 => by
        have h0 : i = 0 := by omega
        subst h0
        rfl)
      rfl

/-- Unfolding equation: the expected payload layout produced by
`_fillDataForSign` for a device that reports version [major, minor, patch]
with an OK status word, whenever the metadata passes the uint8 validation,
the path parses, and the buffer is non-empty and of encodable length. This
is shared by the layout theorems below. -/
theorem fillDataForSign_layout_general
    (major minor patch : Nat) (path : String) (s : SignTxData)
    (pathBytes : List Nat)
    (hpath : DCC.splitPath path = .ok pathBytes)
    (hne : s.dataBuffer ≠ [])
    (hlen : s.dataBuffer.length ≤ 0xffffffff)
    (hap : s.amountPrecision.getD 8 ≤ 255)
    (ha2p : s.amount2Precision.getD 0 ≤ 255)
    (hfp : s.feePrecision.getD 8 ≤ 255)
    (hdt : s.dataType ≤ 255)
    (hdv : s.dataVersion ≤ 255) :
    DCC.fillDataForSign none (.ok [major, minor, patch, 0x90, 0x00]) path s =
      (some [major, minor, patch, 0x90, 0x00], [versionExchange],
        .ok (if 10200 ≤ major * 10000 + minor * 100 + patch then
            pathBytes ++
              [s.amountPrecision.getD 8, s.amount2Precision.getD 0,
                s.feePrecision.getD 8, s.dataType, s.dataVersion] ++
              beBytes4 s.dataBuffer.length ++
              s.dataBuffer ++ s.dataBuffer ++ s.dataBuffer ++ s.dataBuffer
          else if 10100 ≤ major * 10000 + minor * 100 + patch then
            pathBytes ++
              [s.amountPrecision.getD 8, s.feePrecision.getD 8, s.dataType,
                s.dataVersion] ++
              beBytes4 s.dataBuffer.length ++ s.dataBuffer ++ s.dataBuffer
          else
            pathBytes ++
              [s.amountPrecision.getD 8, s.feePrecision.getD 8, s.dataType,
                s.dataVersion] ++ s.dataBuffer)) := by
  have hlt : lastTwo [major, minor, patch, 0x90, 0x00] = [0x90, 0x00] := by
    simp [lastTwo]
  have hdlt : dropLastTwo [major, minor, patch, 0x90, 0x00] =
      [major, minor, patch] := by
    simp [dropLastTwo]
  have hgv : DCC.getVersionStep none (.ok [major, minor, patch, 0x90, 0x00]) =
      (some [major, minor, patch, 0x90, 0x00], [versionExchange],
        .ok [major, minor, patch]) := by
    rw [getVersionStep_none_ok, hlt]
    have hce : DCC.checkError [0x90, 0x00] = none := by decide
    rw [hce, hdlt]
  have hfill : DCC.fillDataAfterVersion [major, minor, patch] path s =
      .ok (if 10200 ≤ major * 10000 + minor * 100 + patch then
          pathBytes ++
            [s.amountPrecision.getD 8, s.amount2Precision.getD 0,
              s.feePrecision.getD 8, s.dataType, s.dataVersion] ++
            beBytes4 s.dataBuffer.length ++
            s.dataBuffer ++ s.dataBuffer ++ s.dataBuffer ++ s.dataBuffer
        else if 10100 ≤ major * 10000 + minor * 100 + patch then
          pathBytes ++
            [s.amountPrecision.getD 8, s.feePrecision.getD 8, s.dataType,
              s.dataVersion] ++
            beBytes4 s.dataBuffer.length ++ s.dataBuffer ++ s.dataBuffer
        else
          pathBytes ++
            [s.amountPrecision.getD 8, s.feePrecision.getD 8, s.dataType,
              s.dataVersion] ++ s.dataBuffer) := by
    unfold DCC.fillDataAfterVersion
    simp only [DCC.DCC_PRECISION]
    rw [if_neg (by omega), if_neg (by omega), if_neg (by omega),
      if_neg (by omega), if_neg (by omega)]
    simp only [List.getD_cons_zero, List.getD_cons_succ]
    rw [hpath]
    simp only
    have hu32 : uint32ToBytesBE s.dataBuffer.length =
        .ok (beBytes4 s.dataBuffer.length) := by
      unfold uint32ToBytesBE
      rw [if_neg (by omega)]
    by_cases h12 : 10200 ≤ major * 10000 + minor * 100 + patch
    · rw [if_pos h12, hu32, if_pos h12]
    · rw [if_neg h12, if_neg h12]
      by_cases h11 : 10100 ≤ major * 10000 + minor * 100 + patch
      · rw [if_pos h11, hu32, if_pos h11]
      · rw [if_neg h11, if_neg h11]
  unfold DCC.fillDataForSign
  rw [if_neg hne, hgv]
  simp only
  rw [hfill]

/-- C1: for every device-reported version (major, minor, patch),
_fillDataForSign computes the firmware integer major*10000 + minor*100 +
patch and produces exactly: for 10200 and above, path-bytes, the five
metadata bytes [amountPrecision, amount2Precision, feePrecision, dataType,
dataVersion], the 4-byte big-endian length of the data buffer, then four
copies of the data buffer; for 10100 up to 10200, path-bytes, the four
metadata bytes [amountPrecision, feePrecision, dataType, dataVersion], the
4-byte big-endian length, then two copies; below 10100, path-bytes, the four
metadata bytes, then a single copy with no length prefix. -/
theorem fillDataForSign_version_layouts
    (major minor patch : Nat) (path : String) (s : SignTxData)
    (pathBytes : List Nat)
    (hpath : DCC.splitPath path = .ok pathBytes)
    (hne : s.dataBuffer ≠ [])
    (hlen : s.dataBuffer.length ≤ 0xffffffff)
    (hap : s.amountPrecision.getD 8 ≤ 255)
    (ha2p : s.amount2Precision.getD 0 ≤ 255)
    (hfp : s.feePrecision.getD 8 ≤ 255)
    (hdt : s.dataType ≤ 255)
    (hdv : s.dataVersion ≤ 255) :
    DCC.fillDataForSign none (.ok [major, minor, patch, 0x90, 0x00]) path s =
      (some [major, minor, patch, 0x90, 0x00], [versionExchange],
        .ok (if 10200 ≤ major * 10000 + minor * 100 + patch then
            pathBytes ++
              [s.amountPrecision.getD 8, s.amount2Precision.getD 0,
                s.feePrecision.getD 8, s.dataType, s.dataVersion] ++
              beBytes4 s.dataBuffer.length ++
              s.dataBuffer ++ s.dataBuffer ++ s.dataBuffer ++ s.dataBuffer
          else if 10100 ≤ major * 10000 + minor * 100 + patch then
            pathBytes ++
              [s.amountPrecision.getD 8, s.feePrecision.getD 8, s.dataType,
                s.dataVersion] ++
              beBytes4 s.dataBuffer.length ++ s.dataBuffer ++ s.dataBuffer
          else
            pathBytes ++
              [s.amountPrecision.getD 8, s.feePrecision.getD 8, s.dataType,
                s.dataVersion] ++ s.dataBuffer)) :=
  fillDataForSign_layout_general major minor patch path s pathBytes hpath hne
    hlen hap ha2p hfp hdt hdv

/-- Witness: fillDataForSign_version_layouts applied at version [1, 2, 0],
the one-component hardened path of index 1, and a concrete payload; the
firmware integer is 10200 and the produced buffer carries the five metadata
bytes, the length prefix and four data copies. -/
theorem fillDataForSign_version_layouts_witness :
    DCC.fillDataForSign none (.ok [1, 2, 0, 0x90, 0x00])
      (String.mk [Char.ofNat 49, Char.ofNat 39])
      ⟨[7], 4, 2, some 6, some 2, some 8⟩ =
      (some [1, 2, 0, 0x90, 0x00], [versionExchange],
        .ok ([0x80, 0, 0, 1] ++ [6, 2, 8, 4, 2] ++ beBytes4 1 ++
          [7] ++ [7] ++ [7] ++ [7])) := by
  have h := fillDataForSign_version_layouts 1 2 0
    (String.mk [Char.ofNat 49, Char.ofNat 39])
    ⟨[7], 4, 2, some 6, some 2, some 8⟩ [0x80, 0, 0, 1]
    (by decide) (by decide) (by decide) (by decide) (by decide) (by decide)
    (by decide) (by decide)
  exact h

/-- C3 counterexample: at firmware version [2, 0, 0] (integer 20000, in the
top tier) with data buffer [9], the payload ends with four copies of the
data buffer after the length prefix, not three as the claim states. -/
theorem fillDataForSign_three_copies_counterexample :
    (DCC.fillDataForSign none (.ok [2, 0, 0, 0x90, 0x00])
        (String.mk [Char.ofNat 49, Char.ofNat 39])
        ⟨[9], 0, 0, none, none, none⟩).2.2 =
      .ok ([0x80, 0, 0, 1] ++ [8, 0, 8, 0, 0] ++ [0, 0, 0, 1] ++ [9, 9, 9, 9]) ∧
    (DCC.fillDataForSign none (.ok [2, 0, 0, 0x90, 0x00])
        (String.mk [Char.ofNat 49, Char.ofNat 39])
        ⟨[9], 0, 0, none, none, none⟩).2.2 ≠
      .ok ([0x80, 0, 0, 1] ++ [8, 0, 8, 0, 0] ++ [0, 0, 0, 1] ++ [9, 9, 9]) := by
  exact ⟨by decide, by decide⟩

/-- C3 (amended): _fillDataForSign selects the length-prefixed layout with
FOUR copies of the data buffer for every firmware version at or above 1.2.0
(for example [2, 0, 0]); the two-copy layout for [1, 1, 0] through
[1, 1, x] (patch below 100); and the no-prefix single-copy layout for
[1, 0, x] and below. -/
theorem fillDataForSign_tier_examples
    (path : String) (s : SignTxData) (pathBytes : List Nat) (x : Nat)
    (hpath : DCC.splitPath path = .ok pathBytes)
    (hne : s.dataBuffer ≠ [])
    (hlen : s.dataBuffer.length ≤ 0xffffffff)
    (hap : s.amountPrecision.getD 8 ≤ 255)
    (ha2p : s.amount2Precision.getD 0 ≤ 255)
    (hfp : s.feePrecision.getD 8 ≤ 255)
    (hdt : s.dataType ≤ 255)
    (hdv : s.dataVersion ≤ 255)
    (hx : x ≤ 99) :
    (DCC.fillDataForSign none (.ok [2, 0, 0, 0x90, 0x00]) path s).2.2 =
      .ok (pathBytes ++ [s.amountPrecision.getD 8, s.amount2Precision.getD 0,
        s.feePrecision.getD 8, s.dataType, s.dataVersion] ++
        beBytes4 s.dataBuffer.length ++ s.dataBuffer ++ s.dataBuffer ++
        s.dataBuffer ++ s.dataBuffer) ∧
    (DCC.fillDataForSign none (.ok [1, 1, x, 0x90, 0x00]) path s).2.2 =
      .ok (pathBytes ++ [s.amountPrecision.getD 8, s.feePrecision.getD 8,
        s.dataType, s.dataVersion] ++ beBytes4 s.dataBuffer.length ++
        s.dataBuffer ++ s.dataBuffer) ∧
    (DCC.fillDataForSign none (.ok [1, 0, x, 0x90, 0x00]) path s).2.2 =
      .ok (pathBytes ++ [s.amountPrecision.getD 8, s.feePrecision.getD 8,
        s.dataType, s.dataVersion] ++ s.dataBuffer) := by
  refine ⟨?_, ?_, ?_⟩
  · rw [fillDataForSign_layout_general 2 0 0 path s pathBytes hpath hne hlen
      hap ha2p hfp hdt hdv]
    dsimp only
    rw [if_pos (by omega)]
  · rw [fillDataForSign_layout_general 1 1 x path s pathBytes hpath hne hlen
      hap ha2p hfp hdt hdv]
    dsimp only
    rw [if_neg (by omega), if_pos (by omega)]
  · rw [fillDataForSign_layout_general 1 0 x path s pathBytes hpath hne hlen
      hap ha2p hfp hdt hdv]
    dsimp only
    rw [if_neg (by omega), if_neg (by omega)]

/-- Witness: fillDataForSign_tier_examples applied at the one-component
hardened path of index 1, a concrete payload, and patch x = 5. -/
theorem fillDataForSign_tier_examples_witness :
    (DCC.fillDataForSign none (.ok [2, 0, 0, 0x90, 0x00])
        (String.mk [Char.ofNat 49, Char.ofNat 39])
        ⟨[7], 4, 2, some 6, some 2, some 8⟩).2.2 =
      .ok ([0x80, 0, 0, 1] ++ [6, 2, 8, 4, 2] ++ beBytes4 1 ++
        [7] ++ [7] ++ [7] ++ [7]) ∧
    (DCC.fillDataForSign none (.ok [1, 1, 5, 0x90, 0x00])
        (String.mk [Char.ofNat 49, Char.ofNat 39])
        ⟨[7], 4, 2, some 6, some 2, some 8⟩).2.2 =
      .ok ([0x80, 0, 0, 1] ++ [6, 8, 4, 2] ++ beBytes4 1 ++ [7] ++ [7]) ∧
    (DCC.fillDataForSign none (.ok [1, 0, 5, 0x90, 0x00])
        (String.mk [Char.ofNat 49, Char.ofNat 39])
        ⟨[7], 4, 2, some 6, some 2, some 8⟩).2.2 =
      .ok ([0x80, 0, 0, 1] ++ [6, 8, 4, 2] ++ [7]) := by
  have h := fillDataForSign_tier_examples
    (String.mk [Char.ofNat 49, Char.ofNat 39])
    ⟨[7], 4, 2, some 6, some 2, some 8⟩ [0x80, 0, 0, 1] 5
    (by decide) (by decide) (by decide) (by decide) (by decide) (by decide)
    (by decide) (by decide) (by decide)
  exact h

/-- Every exchange performed by a getVersion call is the version query. -/
theorem getVersionStep_exchanges_version (cache : Option (List Nat))
    (resp : Except LedgerFailure (List Nat)) :
    ∀ ex ∈ (DCC.getVersionStep cache resp).2.1, ex = versionExchange := by
  intro ex hex
  cases cache with
  | some v0 =>
    rw [getVersionStep_some] at hex
    split at hex <;> simp at hex
  | none =>
    cases resp with
    | error e =>
      rw [getVersionStep_none_err] at hex
      simpa using hex
    | ok bytes =>
      rw [getVersionStep_none_ok] at hex
      split at hex <;> simpa using hex

/-- C7 (amended): a signing call whose payload carries a single-byte
metadata field outside [0, 255] (for example amountPrecision = 256) and a
non-empty data buffer fails with a range error before any signing-data
exchange, but AFTER the firmware version query: whenever the version query
succeeds, the call's result is the range error and every exchange it
performed is the version query (none is a signing APDU). -/
theorem signing_range_error_after_version_query
    (networkCode : Nat) (cache : Option (List Nat))
    (resp : Except LedgerFailure (List Nat)) (dev : Nat → List Nat)
    (path : String) (s : SignTxData) (v : List Nat)
    (hne : s.dataBuffer ≠ [])
    (hv : (DCC.getVersionStep cache resp).2.2 = .ok v)
    (hap : 255 < s.amountPrecision.getD 8) :
    (DCC.signTransaction networkCode cache resp dev path s).2.2 =
      .error (.rangeError "amountPrecision") ∧
    ∀ ex ∈ (DCC.signTransaction networkCode cache resp dev path s).2.1,
      ex = versionExchange := by
  rcases hgv : DCC.getVersionStep cache resp with ⟨c2, exs, r⟩
  rw [hgv] at hv
  dsimp only at hv
  subst hv
  have hfill0 : DCC.fillDataAfterVersion v path s =
      .error (.rangeError "amountPrecision") := by
    unfold DCC.fillDataAfterVersion
    simp only [DCC.DCC_PRECISION]
    rw [if_pos (by omega)]
  have hfd : DCC.fillDataForSign cache resp path s =
      (c2, exs, .error (.rangeError "amountPrecision")) := by
    unfold DCC.fillDataForSign
    rw [if_neg hne, hgv]
    dsimp only
    rw [hfill0]
  unfold DCC.signTransaction
  rw [hfd]
  dsimp only
  refine ⟨rfl, ?_⟩
  intro ex hex
  have hall := getVersionStep_exchanges_version cache resp
  rw [hgv] at hall
  exact hall ex hex

/-- Witness: signing_range_error_after_version_query applied at a fresh
engine, a successful version response [1, 2, 0], the one-component hardened
path of index 1, and amountPrecision = 256. -/
theorem signing_range_error_after_version_query_witness :
    (DCC.signTransaction 76 none (.ok [1, 2, 0, 0x90, 0x00])
        (fun _ => [0x90, 0x00]) (String.mk [Char.ofNat 49, Char.ofNat 39])
        ⟨[1], 0, 0, some 256, none, none⟩).2.2 =
      .error (.rangeError "amountPrecision") ∧
    ∀ ex ∈ (DCC.signTransaction 76 none (.ok [1, 2, 0, 0x90, 0x00])
        (fun _ => [0x90, 0x00]) (String.mk [Char.ofNat 49, Char.ofNat 39])
        ⟨[1], 0, 0, some 256, none, none⟩).2.1,
      ex = versionExchange :=
  signing_range_error_after_version_query 76 none (.ok [1, 2, 0, 0x90, 0x00])
    (fun _ => [0x90, 0x00]) (String.mk [Char.ofNat 49, Char.ofNat 39])
    ⟨[1], 0, 0, some 256, none, none⟩ [1, 2, 0] (by decide) (by decide)
    (by decide)

/-- C7 counterexample: on a fresh engine with amountPrecision = 256 and a
non-empty buffer the signing call does fail with the range error, but only
after performing a transport exchange (the version query), so it does not
fail before any I/O as the claim states. -/
theorem signing_range_error_io_counterexample :
    (DCC.signTransaction 76 none (.ok [1, 2, 0, 0x90, 0x00])
        (fun _ => [0x90, 0x00]) (String.mk [Char.ofNat 49, Char.ofNat 39])
        ⟨[1], 0, 0, some 256, none, none⟩).2.1 ≠ [] ∧
    (DCC.signTransaction 76 none (.ok [1, 2, 0, 0x90, 0x00])
        (fun _ => [0x90, 0x00]) (String.mk [Char.ofNat 49, Char.ofNat 39])
        ⟨[1], 0, 0, some 256, none, none⟩).2.2 =
      .error (.rangeError "amountPrecision") := by
  exact ⟨by decide, by decide⟩

/-- C8 counterexample: signOrder does not zero the caller's fields: with
amountPrecision = 5 and dataVersion = 1 supplied by the caller, the record
handed to _fillDataForSign keeps them, and at firmware 1.2.0 the built
payload carries metadata bytes [5, 0, 8, 0xfc, 1], with amountPrecision 5,
the defaulted feePrecision 8 and dataVersion 1 — not zeros. -/
theorem signOrder_not_zeroed_counterexample :
    (DCC.signOrderData ⟨[9], 1, some 5, none, none⟩).amountPrecision.getD 8 = 5 ∧
    (DCC.signOrderData ⟨[9], 1, some 5, none, none⟩).dataVersion = 1 ∧
    ¬((DCC.signOrderData ⟨[9], 1, some 5, none, none⟩).amountPrecision.getD 8 = 0 ∧
      (DCC.signOrderData ⟨[9], 1, some 5, none, none⟩).dataVersion = 0) ∧
    (DCC.fillDataForSign none (.ok [1, 2, 0, 0x90, 0x00])
        (String.mk [Char.ofNat 49, Char.ofNat 39])
        (DCC.signOrderData ⟨[9], 1, some 5, none, none⟩)).2.2 =
      .ok ([0x80, 0, 0, 1] ++ [5, 0, 8, 0xfc, 1] ++ [0, 0, 0, 1] ++
        [9, 9, 9, 9]) := by
  exact ⟨by decide, by decide, by decide, by decide⟩

/-- C8 (amended): signSomeData (0xFD), signRequest (0xFE) and signMessage
(0xFF) stamp their fixed type code and set dataVersion, amountPrecision and
feePrecision to zero regardless of the caller (amount2Precision is left
unset and defaults to zero when the payload is built, so at firmware 1.2.0
the metadata bytes are [0, 0, 0, code, 0]); signOrder stamps only the ORDER
code 0xFC and preserves every caller-supplied precision field and the
dataVersion unchanged. -/
theorem sign_kind_stamping :
    (∀ d : SignData,
      (DCC.signSomeDataData d).dataType = 0xfd ∧
      (DCC.signSomeDataData d).dataVersion = 0 ∧
      (DCC.signSomeDataData d).amountPrecision.getD 8 = 0 ∧
      (DCC.signSomeDataData d).feePrecision.getD 8 = 0 ∧
      (DCC.signSomeDataData d).amount2Precision.getD 0 = 0 ∧
      (DCC.signSomeDataData d).dataBuffer = d.dataBuffer) ∧
    (∀ d : SignData,
      (DCC.signRequestData d).dataType = 0xfe ∧
      (DCC.signRequestData d).dataVersion = 0 ∧
      (DCC.signRequestData d).amountPrecision.getD 8 = 0 ∧
      (DCC.signRequestData d).feePrecision.getD 8 = 0 ∧
      (DCC.signRequestData d).amount2Precision.getD 0 = 0 ∧
      (DCC.signRequestData d).dataBuffer = d.dataBuffer) ∧
    (∀ d : SignData,
      (DCC.signMessageData d).dataType = 0xff ∧
      (DCC.signMessageData d).dataVersion = 0 ∧
      (DCC.signMessageData d).amountPrecision.getD 8 = 0 ∧
      (DCC.signMessageData d).feePrecision.getD 8 = 0 ∧
      (DCC.signMessageData d).amount2Precision.getD 0 = 0 ∧
      (DCC.signMessageData d).dataBuffer = d.dataBuffer) ∧
    (∀ o : SignOrderData,
      (DCC.signOrderData o).dataType = 0xfc ∧
      (DCC.signOrderData o).dataVersion = o.dataVersion ∧
      (DCC.signOrderData o).amountPrecision = o.amountPrecision ∧
      (DCC.signOrderData o).amount2Precision = o.amount2Precision ∧
      (DCC.signOrderData o).feePrecision = o.feePrecision ∧
      (DCC.signOrderData o).dataBuffer = o.dataBuffer) ∧
    (∀ (d : SignData) (path : String) (pathBytes : List Nat),
      DCC.splitPath path = .ok pathBytes →
      d.dataBuffer ≠ [] →
      d.dataBuffer.length ≤ 0xffffffff →
      (DCC.fillDataForSign none (.ok [1, 2, 0, 0x90, 0x00]) path
        (DCC.signSomeDataData d)).2.2 =
        .ok (pathBytes ++ [0, 0, 0, 0xfd, 0] ++ beBytes4 d.dataBuffer.length ++
          d.dataBuffer ++ d.dataBuffer ++ d.dataBuffer ++ d.dataBuffer)) := by
  refine ⟨fun d => ⟨rfl, rfl, rfl, rfl, rfl, rfl⟩,
    fun d => ⟨rfl, rfl, rfl, rfl, rfl, rfl⟩,
    fun d => ⟨rfl, rfl, rfl, rfl, rfl, rfl⟩,
    fun o => ⟨rfl, rfl, rfl, rfl, rfl, rfl⟩, ?_⟩
  intro d path pathBytes hpath hne hlen
  have h := fillDataForSign_layout_general 1 2 0 path (DCC.signSomeDataData d)
    pathBytes hpath hne hlen (by norm_num [DCC.signSomeDataData])
    (by norm_num [DCC.signSomeDataData]) (by norm_num [DCC.signSomeDataData])
    (by norm_num [DCC.signSomeDataData]) (by norm_num [DCC.signSomeDataData])
  rw [h]
  dsimp only
  rw [if_pos (by omega)]
  rfl

/-- Witness: sign_kind_stamping applied at a concrete raw-data payload [9]
and the one-component hardened path of index 1. -/
theorem sign_kind_stamping_witness :
    (DCC.fillDataForSign none (.ok [1, 2, 0, 0x90, 0x00])
        (String.mk [Char.ofNat 49, Char.ofNat 39])
        (DCC.signSomeDataData ⟨[9]⟩)).2.2 =
      .ok ([0x80, 0, 0, 1] ++ [0, 0, 0, 0xfd, 0] ++ beBytes4 1 ++
        [9] ++ [9] ++ [9] ++ [9]) := by
  have h := sign_kind_stamping.2.2.2.2 ⟨[9]⟩
    (String.mk [Char.ofNat 49, Char.ofNat 39]) [0x80, 0, 0, 1]
    (by decide) (by decide) (by decide)
  exact h

/-- The chunk loop does nothing on an exhausted buffer. -/
theorem signDataGo_nil (chainId : Nat) (dev : Nat → List Nat) (fuel k : Nat)
    (result : List Nat) :
    DCC.signDataGo chainId dev fuel k [] result = ([], .ok result) := by
  cases fuel <;> rfl

/-- Unfolding equation of the chunk loop on a non-empty buffer. -/
theorem signDataGo_cons (chainId : Nat) (dev : Nat → List Nat)
    (fuel k : Nat) (remaining result : List Nat) (hne : remaining ≠ []) :
    DCC.signDataGo chainId dev (fuel + 1) k remaining result =
      match DCC.checkError (lastTwo (dev k)) with
      | some err =>
        ([⟨0x80, 0x02, if 123 < remaining.length then 0x00 else 0x80, chainId,
            remaining.take (min remaining.length 123)⟩],
          .error (.statusError err))
      | none =>
        (⟨0x80, 0x02, if 123 < remaining.length then 0x00 else 0x80, chainId,
            remaining.take (min remaining.length 123)⟩ ::
          (DCC.signDataGo chainId dev fuel (k + 1)
            (remaining.drop (min remaining.length 123)) (dev k)).1,
          (DCC.signDataGo chainId dev fuel (k + 1)
            (remaining.drop (min remaining.length 123)) (dev k)).2) := by
  conv_lhs => unfold DCC.signDataGo
  rw [if_neg hne]

/-- Chunk-loop invariant: with every device response OK, the exchanges carry
exactly the consecutive chunks of the remaining buffer in order, each
non-empty and at most 123 bytes, as signing APDUs with the more/final
parameter bytes, and their number is the ceiling of length/123. -/
theorem signDataGo_spec (chainId : Nat) (dev : Nat → List Nat) :
    ∀ (fuel k : Nat) (remaining result : List Nat),
      remaining.length ≤ fuel →
      (∀ k2, DCC.checkError (lastTwo (dev k2)) = none) →
      remaining ≠ [] →
      (((DCC.signDataGo chainId dev fuel k remaining result).1.map
          Exchange.data).flatten = remaining) ∧
      (∀ ex ∈ (DCC.signDataGo chainId dev fuel k remaining result).1,
        ex.data ≠ [] ∧ ex.data.length ≤ 123 ∧ ex.cla = 0x80 ∧
          ex.ins = 0x02 ∧ ex.p2 = chainId) ∧
      ((DCC.signDataGo chainId dev fuel k remaining result).1.map Exchange.p1 =
        List.replicate
          ((DCC.signDataGo chainId dev fuel k remaining result).1.length - 1)
          0x00 ++ [0x80]) ∧
      (DCC.signDataGo chainId dev fuel k remaining result).1.length =
        (remaining.length + 122) / 123 := by
  intro fuel
  induction fuel with
  | zero =>
    intro k remaining result hf hok hne
    cases remaining with
    | nil => exact absurd rfl hne
    | cons a l => simp at hf
  | succ fuel ih =>
    intro k remaining result hf hok hne
    have hpos : 0 < remaining.length := List.length_pos.mpr hne
    rw [signDataGo_cons chainId dev fuel k remaining result hne, hok k]
    dsimp only
    by_cases hbig : 123 < remaining.length
    · have hmin : min remaining.length 123 = 123 := by omega
      rw [hmin]
      have hdlen : (remaining.drop 123).length = remaining.length - 123 := by
        simp
      have hdne : remaining.drop 123 ≠ [] := by
        intro hd
        rw [hd] at hdlen
        simp at hdlen
        omega
      obtain ⟨ih1, ih2, ih3, ih4⟩ := ih (k + 1) (remaining.drop 123) (dev k)
        (by omega) hok hdne
      have htake : (remaining.take 123).length = 123 := by
        simp
        omega
      refine ⟨?_, ?_, ?_, ?_⟩
      · simp only [List.map_cons, List.flatten_cons, ih1]
        exact List.take_append_drop 123 remaining
      · intro ex hex
        rcases List.mem_cons.mp hex with rfl | hex2
        · refine ⟨?_, ?_, rfl, rfl, rfl⟩
          · show List.take 123 remaining ≠ []
            intro hd
            rw [hd] at htake
            simp at htake
          · show (List.take 123 remaining).length ≤ 123
            omega
        · exact ih2 ex hex2
      · simp only [List.map_cons, List.length_cons, if_pos hbig, ih3]
        have hn : (DCC.signDataGo chainId dev fuel (k + 1)
            (remaining.drop 123) (dev k)).1.length ≥ 1 := by
          rw [ih4, hdlen]
          omega
        have hrep : List.replicate
            ((DCC.signDataGo chainId dev fuel (k + 1)
              (remaining.drop 123) (dev k)).1.length + 1 - 1) (0x00 : Nat) =
            0x00 :: List.replicate
              ((DCC.signDataGo chainId dev fuel (k + 1)
                (remaining.drop 123) (dev k)).1.length - 1) 0x00 := by
          have he : (DCC.signDataGo chainId dev fuel (k + 1)
              (remaining.drop 123) (dev k)).1.length + 1 - 1 =
              ((DCC.signDataGo chainId dev fuel (k + 1)
                (remaining.drop 123) (dev k)).1.length - 1) + 1 := by omega
          rw [he, List.replicate_succ]
        rw [hrep]
        rfl
      · simp only [List.length_cons, ih4, hdlen]
        omega
    · have hmin : min remaining.length 123 = remaining.length :=
        Nat.min_eq_left (by omega)
      rw [hmin, List.take_length, List.drop_length,
        signDataGo_nil chainId dev fuel (k + 1) (dev k)]
      refine ⟨by simp, ?_, ?_, ?_⟩
      · intro ex hex
        rcases List.mem_cons.mp hex with rfl | hex2
        · refine ⟨?_, ?_, rfl, rfl, rfl⟩
          · show remaining ≠ []
            exact hne
          · show remaining.length ≤ 123
            omega
        · simp at hex2
      · simp [if_neg hbig]
      · simp only [List.length_cons, List.length_nil]
        omega

/-- C2: for every non-empty input buffer (with the device answering every
chunk with an OK status), _signData splits it into consecutive chunks of at
most 123 bytes (128 - 5), sent in order as signing APDUs; the parameter
byte of every exchange except the last is 0x00 (more chunks follow) and the
last exchange's parameter byte is 0x80 (final); the number of exchanges is
the ceiling of length/123, so a 250-byte buffer is sent in exactly 3
exchanges, the first two with parameter 0x00 and the third with 0x80. -/
theorem signData_chunking (chainId : Nat) (dev : Nat → List Nat)
    (buf : List Nat) (hne : buf ≠ [])
    (hok : ∀ k, DCC.checkError (lastTwo (dev k)) = none) :
    ((DCC.signData chainId dev buf).1.map Exchange.data).flatten = buf ∧
    (∀ ex ∈ (DCC.signData chainId dev buf).1,
      ex.data ≠ [] ∧ ex.data.length ≤ 123 ∧ ex.cla = 0x80 ∧ ex.ins = 0x02 ∧
        ex.p2 = chainId) ∧
    ((DCC.signData chainId dev buf).1.map Exchange.p1 =
      List.replicate ((DCC.signData chainId dev buf).1.length - 1) 0x00 ++
        [0x80]) ∧
    (DCC.signData chainId dev buf).1.length = (buf.length + 122) / 123 := by
  have h1 : (DCC.signData chainId dev buf).1 =
      (DCC.signDataGo chainId dev buf.length 0 buf []).1 := by
    unfold DCC.signData
    rw [if_neg hne]
    rcases hg : DCC.signDataGo chainId dev buf.length 0 buf [] with ⟨exs, r⟩
    cases r with
    | error e => rfl
    | ok result =>
      dsimp only
      split <;> rfl
  rw [h1]
  exact signDataGo_spec chainId dev buf.length 0 buf [] le_rfl hok hne

set_option maxRecDepth 4096 in
/-- Witness: signData_chunking applied at a concrete 250-byte buffer with an
always-OK device: 3 exchanges, parameter bytes [0x00, 0x00, 0x80]. -/
theorem signData_chunking_witness :
    ((DCC.signData 76 (fun _ => [0x90, 0x00]) (List.replicate 250 0xaa)).1.map
      Exchange.p1 =
      List.replicate
        ((DCC.signData 76 (fun _ => [0x90, 0x00])
          (List.replicate 250 0xaa)).1.length - 1) 0x00 ++ [0x80]) ∧
    (DCC.signData 76 (fun _ => [0x90, 0x00])
      (List.replicate 250 0xaa)).1.length = (250 + 122) / 123 := by
  have h := signData_chunking 76 (fun _ => [0x90, 0x00])
    (List.replicate 250 0xaa)
    (by
      intro hcontra
      have hlen := congrArg List.length hcontra
      rw [List.length_replicate] at hlen
      simp at hlen)
    (by
      intro k2
      show DCC.checkError (lastTwo [0x90, 0x00]) = none
      decide)
  refine ⟨h.2.2.1, ?_⟩
  have h4 := h.2.2.2
  rw [List.length_replicate] at h4
  exact h4
